import Mathlib

/-!
Verification development for the muxnet session watcher.

The definitions below are shallow embeddings of the Go functions in
`main.go` and the websocket variant of the watcher (`muxnet.go`):
pure Go functions become Lean functions over `String` / `List Char`,
timestamps (`time.Time` / `time.Duration`) become `Int` nanoseconds,
Go maps become association lists looked up by first match, and the
external environment (tmux, the filesystem, the websocket channel)
is passed in explicitly as data.
-/

/-- Character class of RE2 `\s` (Go `regexp`): tab, newline, form feed,
carriage return, space. -/
def reSpace (c : Char) : Bool :=
  c = '\t' || c = '\n' || c = '\x0c' || c = '\r' || c = ' '

/-- Character class of RE2 `\w` (Go `regexp`): `[0-9A-Za-z_]`. -/
def isWordChar (c : Char) : Bool :=
  c.isAlpha || c.isDigit || c = '_'

/-- Insert-or-replace for an association list with `String` keys, modelling
assignment `m[k] = v` into a Go map represented as an association list. -/
def upsert {α : Type} (k : String) (v : α) : List (String × α) → List (String × α)
  | [] => [(k, v)]
  | (k', v') :: rest => if k' = k then (k, v) :: rest else (k', v') :: upsert k v rest

/-- Lookup in an association list with `String` keys, modelling Go map read
`m[k]` (`none` plays the role of the missing key / `nil` value). -/
def assocLookup {α : Type} (l : List (String × α)) (k : String) : Option α :=
  (l.find? (fun p => p.1 == k)).map (fun p => p.2)

theorem assocLookup_nil {α : Type} (k : String) : assocLookup ([] : List (String × α)) k = none := rfl

theorem assocLookup_cons {α : Type} (k k' : String) (v : α) (l : List (String × α)) :
    assocLookup ((k', v) :: l) k = if k' = k then some v else assocLookup l k := by
  simp only [assocLookup, List.find?]
  by_cases h : k' = k
  · simp [h]
  · simp [h, beq_eq_false_iff_ne.mpr h]

theorem assocLookup_upsert_self {α : Type} (k : String) (v : α) (l : List (String × α)) :
    assocLookup (upsert k v l) k = some v := by
  induction l with
  | nil => simp [upsert, assocLookup_cons]
  | cons p rest ih =>
    obtain ⟨k', v'⟩ := p
    simp only [upsert]
    by_cases h : k' = k
    · simp [h, assocLookup_cons]
    · simp [h, assocLookup_cons, ih]

theorem assocLookup_upsert_ne {α : Type} (k k' : String) (v : α) (l : List (String × α))
    (h : k' ≠ k) : assocLookup (upsert k v l) k' = assocLookup l k' := by
  induction l with
  | nil => simp [upsert, assocLookup_cons, Ne.symm h, assocLookup_nil]
  | cons p rest ih =>
    obtain ⟨k1, v1⟩ := p
    simp only [upsert]
    by_cases hk : k1 = k
    · subst hk
      simp [assocLookup_cons, Ne.symm h]
    · simp only [if_neg hk]
      rw [assocLookup_cons, assocLookup_cons, ih]

/-! ## Directive deduplicator (`canExecutePrompt`, `processedPrompts`) -/

/-- The `processedPrompts` field: session name → (directive text → last
execution time, in nanoseconds). -/
abbrev PP := List (String × List (String × Int))

/-- `deduplicationInterval: 60 * time.Second`, in nanoseconds. -/
def deduplicationInterval : Int := 60 * 1000000000

/-- Embedding of `Muxnet.canExecutePrompt`: the missing-session case models
`m.processedPrompts[sessionName] == nil`, the missing-prompt case models
`!exists`, and the final case models `currentTime.Sub(lastExecutionTime) >
m.deduplicationInterval`. -/
def canExecutePrompt (pp : PP) (sessionName prompt : String) (currentTime : Int) : Bool :=
  match assocLookup pp sessionName with
  | none => true
  | some inner =>
    match assocLookup inner prompt with
    | none => true
    | some lastExecutionTime => decide (currentTime - lastExecutionTime > deduplicationInterval)

/-- Embedding of the recording step in `monitorSession`:
`if m.processedPrompts[sessionName] == nil { ... = make(...) };
m.processedPrompts[sessionName][prompt] = currentTime`. -/
def recordExecution (pp : PP) (sessionName prompt : String) (currentTime : Int) : PP :=
  let inner := (assocLookup pp sessionName).getD []
  upsert sessionName (upsert prompt currentTime inner) pp

/-- The last recorded execution time for a (session, prompt) pair, if any. -/
def lastExecution (pp : PP) (sessionName prompt : String) : Option Int :=
  (assocLookup pp sessionName).bind (fun inner => assocLookup inner prompt)

theorem lastExecution_recordExecution_self (pp : PP) (s p : String) (t : Int) :
    lastExecution (recordExecution pp s p t) s p = some t := by
  simp [lastExecution, recordExecution, assocLookup_upsert_self]

theorem lastExecution_recordExecution_ne (pp : PP) (s p p' : String) (t : Int)
    (h : p' ≠ p) : lastExecution (recordExecution pp s p t) s p' = lastExecution pp s p' := by
  simp only [lastExecution, recordExecution, assocLookup_upsert_self, Option.some_bind]
  rw [assocLookup_upsert_ne _ _ _ _ h]
  cases hs : assocLookup pp s with
  | none => simp [hs, assocLookup_nil]
  | some inner => simp [hs]

theorem canExecutePrompt_iff_lastExecution (pp : PP) (s p : String) (now : Int) :
    canExecutePrompt pp s p now = true ↔
      (lastExecution pp s p = none ∨
        ∃ t, lastExecution pp s p = some t ∧ now - t > deduplicationInterval) := by
  unfold canExecutePrompt lastExecution
  cases hs : assocLookup pp s with
  | none => simp
  | some inner =>
    cases hp : assocLookup inner p with
    | none => simp [hp]
    | some t => simp [hp]

/-- C3: `canExecutePrompt` returns true iff no execution of the exact
(session, payload) pair is recorded or the elapsed time strictly exceeds the
60-second window; a repeat at t+30s is rejected, at t+61s accepted, and
textually different payloads are distinct keys. -/
theorem C3_canExecutePrompt_dedup_window :
    (∀ pp s p now, canExecutePrompt pp s p now = true ↔
        (lastExecution pp s p = none ∨
          ∃ t, lastExecution pp s p = some t ∧ now - t > deduplicationInterval)) ∧
    (∀ pp s p t, canExecutePrompt (recordExecution pp s p t) s p (t + 30 * 1000000000) = false) ∧
    (∀ pp s p t, canExecutePrompt (recordExecution pp s p t) s p (t + 61 * 1000000000) = true) ∧
    (∀ pp s p p' t, p' ≠ p →
        lastExecution (recordExecution pp s p t) s p' = lastExecution pp s p') := by
  refine ⟨canExecutePrompt_iff_lastExecution, ?_, ?_, ?_⟩
  · intro pp s p t
    have h := lastExecution_recordExecution_self pp s p t
    rw [← Bool.not_eq_true]
    intro hcan
    rcases (canExecutePrompt_iff_lastExecution _ s p _).mp hcan with h0 | ⟨t', ht', hgt⟩
    · rw [h] at h0; exact Option.noConfusion h0
    · rw [h] at ht'
      have heq : t = t' := by injection ht'
      subst heq
      simp only [deduplicationInterval] at hgt
      omega
  · intro pp s p t
    refine (canExecutePrompt_iff_lastExecution _ s p _).mpr (Or.inr ⟨t, ?_, ?_⟩)
    · exact lastExecution_recordExecution_self pp s p t
    · simp only [deduplicationInterval]; omega
  · intro pp s p p' t h
    exact lastExecution_recordExecution_ne pp s p p' t h

/-- C3 witness: the theorem applied at concrete inputs. -/
theorem C3_canExecutePrompt_dedup_window_witness :
    lastExecution (recordExecution [] "sess" "ls" 0) "sess" "pwd" = lastExecution [] "sess" "pwd" :=
  C3_canExecutePrompt_dedup_window.2.2.2 [] "sess" "ls" "pwd" 0 (by decide)

/-! ## Line scanning (`bufio.Scanner` with `ScanLines`) and joins -/

/-- One step of `bufio.ScanLines`: a token has its single trailing carriage
return dropped (`dropCR`). -/
def dropTrailingCR (l : List Char) : List Char :=
  if l.getLast? = some '\r' then l.dropLast else l

/-- Split on newline characters; the resulting list of parts is never empty
(an empty input gives one empty part). -/
def splitNl : List Char → List (List Char)
  | [] => [[]]
  | c :: rest =>
    if c = '\n' then [] :: splitNl rest
    else
      match splitNl rest with
      | [] => [[c]]
      | p :: ps => (c :: p) :: ps

/-- The token sequence produced by `bufio.Scanner` with the default
`ScanLines` split function: split on `\n`, drop the trailing empty part
that a terminating `\n` (or empty input) would create, and strip one
trailing `\r` from each token. -/
def goLines (cs : List Char) : List (List Char) :=
  let ps := splitNl cs
  (if ps.getLast? = some [] then ps.dropLast else ps).map dropTrailingCR

/-- Embedding of Go `strings.Join` on character lists. -/
def joinSep (sep : List Char) : List (List Char) → List Char
  | [] => []
  | [l] => l
  | l :: ls => l ++ sep ++ joinSep sep ls

/-- Embedding of Go `strings.Contains`. -/
def hasSubstr (sub : List Char) : List Char → Bool
  | [] => sub.isEmpty
  | c :: rest => sub.isPrefixOf (c :: rest) || hasSubstr sub rest

/-! ## Response filter (`filterCommandResponse`) -/

/-- Embedding of the Go regexp `^\s*[\w-]+` applied to one line through
`MatchString`: since `\s` and `[\w-]` are disjoint character classes, the
pattern matches exactly when the first character left after the leading
whitespace run is a word character or a hyphen. -/
def matchCmdPattern (l : List Char) : Bool :=
  match l.dropWhile reSpace with
  | c :: _ => isWordChar c || c = '-'
  | [] => false

/-- Embedding of `Muxnet.filterCommandResponse`: keep the lines matched by
`commandPattern`, join with `"\n"`. -/
def filterCommandResponse (response : String) : String :=
  String.mk (joinSep ['\n'] ((goLines response.data).filter matchCmdPattern))

/-- Spec-side reading of the filter predicate, written independently: the
line's first non-whitespace character exists and is a word character or a
hyphen (the start of a token composed of word characters and hyphens). -/
def specCmdStart (l : List Char) : Bool :=
  match l.find? (fun c => !(reSpace c)) with
  | some c => isWordChar c || c = '-'
  | none => false

/-! ## Screen-content filter (`getFilteredScreenContent`) -/

/-- Embedding of `Muxnet.getFilteredScreenContent`: drop every line that
contains one of the four directive markers, then join with the literal
two-character sequence backslash-`n` (the Go source joins with the string
literal `"\\n"`, which denotes a backslash followed by `n`, not a
newline). -/
def getFilteredScreenContent (content : String) : String :=
  String.mk (joinSep ['\\', 'n']
    ((goLines content.data).filter (fun line =>
      !(hasSubstr ['#', '$'] line) && !(hasSubstr ['#', '@'] line) &&
      !(hasSubstr ['#', '%'] line) && !(hasSubstr ['#', '!'] line))))

/-- The four directive markers, as a list (spec-side formulation). -/
def directiveMarkers : List (List Char) := [['#', '$'], ['#', '@'], ['#', '%'], ['#', '!']]

/-! ### Supporting lemmas about line splitting -/

theorem splitNl_ne_nil (cs : List Char) : splitNl cs ≠ [] := by
  cases cs with
  | nil => simp [splitNl]
  | cons c rest =>
    simp only [splitNl]
    by_cases h : c = '\n'
    · simp [h]
    · simp only [if_neg h]
      cases splitNl rest <;> simp

theorem splitNl_no_newline (cs : List Char) : ∀ l ∈ splitNl cs, '\n' ∉ l := by
  induction cs with
  | nil => intro l hl; simp [splitNl] at hl; simp [hl]
  | cons c rest ih =>
    intro l hl
    simp only [splitNl] at hl
    by_cases h : c = '\n'
    · rw [if_pos h] at hl
      rcases List.mem_cons.mp hl with h1 | h1
      · simp [h1]
      · exact ih l h1
    · rw [if_neg h] at hl
      cases hs : splitNl rest with
      | nil => exact absurd hs (splitNl_ne_nil rest)
      | cons p ps =>
        rw [hs] at hl
        rcases List.mem_cons.mp hl with h1 | h1
        · subst h1
          intro hmem
          rcases List.mem_cons.mp hmem with h2 | h2
          · exact h h2.symm
          · exact ih p (hs ▸ List.mem_cons_self p ps) h2
        · exact ih l (hs ▸ List.mem_cons.mpr (Or.inr h1))

theorem splitNl_subset (cs : List Char) : ∀ l ∈ splitNl cs, ∀ c ∈ l, c ∈ cs := by
  induction cs with
  | nil => intro l hl c hc; simp [splitNl] at hl; subst hl; simp at hc
  | cons a rest ih =>
    intro l hl c hc
    simp only [splitNl] at hl
    by_cases h : a = '\n'
    · rw [if_pos h] at hl
      rcases List.mem_cons.mp hl with h1 | h1
      · subst h1; simp at hc
      · exact List.mem_cons.mpr (Or.inr (ih l h1 c hc))
    · rw [if_neg h] at hl
      cases hs : splitNl rest with
      | nil => exact absurd hs (splitNl_ne_nil rest)
      | cons p ps =>
        rw [hs] at hl
        rcases List.mem_cons.mp hl with h1 | h1
        · subst h1
          rcases List.mem_cons.mp hc with h2 | h2
          · exact List.mem_cons.mpr (Or.inl h2)
          · exact List.mem_cons.mpr (Or.inr (ih p (hs ▸ List.mem_cons_self p ps) c h2))
        · exact List.mem_cons.mpr (Or.inr (ih l (hs ▸ List.mem_cons.mpr (Or.inr h1)) c hc))

theorem dropTrailingCR_subset (l : List Char) : ∀ c ∈ dropTrailingCR l, c ∈ l := by
  intro c hc
  unfold dropTrailingCR at hc
  by_cases h : l.getLast? = some '\r'
  · rw [if_pos h] at hc
    exact List.dropLast_subset l hc
  · rwa [if_neg h] at hc

theorem goLines_mem_subset (cs : List Char) : ∀ l ∈ goLines cs, ∀ c ∈ l, c ∈ cs := by
  intro l hl c hc
  unfold goLines at hl
  rcases List.mem_map.mp hl with ⟨p, hp, hpl⟩
  have hpmem : p ∈ splitNl cs := by
    by_cases h : (splitNl cs).getLast? = some []
    · rw [if_pos h] at hp
      exact List.dropLast_subset _ hp
    · rwa [if_neg h] at hp
  exact splitNl_subset cs p hpmem c (dropTrailingCR_subset p c (hpl ▸ hc))

theorem goLines_no_newline (cs : List Char) : ∀ l ∈ goLines cs, '\n' ∉ l := by
  intro l hl hmem
  unfold goLines at hl
  rcases List.mem_map.mp hl with ⟨p, hp, hpl⟩
  have hpmem : p ∈ splitNl cs := by
    by_cases h : (splitNl cs).getLast? = some []
    · rw [if_pos h] at hp
      exact List.dropLast_subset _ hp
    · rwa [if_neg h] at hp
  exact splitNl_no_newline cs p hpmem (dropTrailingCR_subset p '\n' (hpl ▸ hmem))

theorem getLast?_mem_of_eq {α : Type} : ∀ (l : List α) (a : α), l.getLast? = some a → a ∈ l
  | [], _, h => by simp at h
  | [x], a, h => by
    simp only [List.getLast?_singleton, Option.some.injEq] at h
    simp [h]
  | x :: y :: ys, a, h => by
    rw [List.getLast?_cons_cons] at h
    exact List.mem_cons.mpr (Or.inr (getLast?_mem_of_eq (y :: ys) a h))

theorem map_id_of_mem {α : Type} (f : α → α) :
    ∀ (l : List α), (∀ a ∈ l, f a = a) → l.map f = l
  | [], _ => rfl
  | x :: xs, h => by
    simp only [List.map_cons]
    rw [h x (List.mem_cons_self x xs), map_id_of_mem f xs (fun a ha => h a (List.mem_cons.mpr (Or.inr ha)))]

theorem splitNl_of_no_newline : ∀ (l : List Char), '\n' ∉ l → splitNl l = [l]
  | [], _ => rfl
  | c :: rest, h => by
    have hc : c ≠ '\n' := fun hc => h (hc ▸ List.mem_cons_self c rest)
    have hrest : '\n' ∉ rest := fun hr => h (List.mem_cons.mpr (Or.inr hr))
    simp only [splitNl, if_neg hc, splitNl_of_no_newline rest hrest]

theorem splitNl_append_newline : ∀ (l : List Char), '\n' ∉ l → ∀ (r : List Char),
    splitNl (l ++ '\n' :: r) = l :: splitNl r
  | [], _, r => by simp [splitNl]
  | c :: rest, h, r => by
    have hc : c ≠ '\n' := fun hc => h (hc ▸ List.mem_cons_self c rest)
    have hrest : '\n' ∉ rest := fun hr => h (List.mem_cons.mpr (Or.inr hr))
    show splitNl (c :: (rest ++ '\n' :: r)) = (c :: rest) :: splitNl r
    simp only [splitNl, if_neg hc]
    rw [splitNl_append_newline rest hrest r]

theorem splitNl_joinSep (ls : List (List Char)) (hne : ls ≠ [])
    (h : ∀ l ∈ ls, '\n' ∉ l) : splitNl (joinSep ['\n'] ls) = ls := by
  induction ls with
  | nil => exact absurd rfl hne
  | cons l rest ih =>
    cases rest with
    | nil =>
      simp only [joinSep]
      exact splitNl_of_no_newline l (h l (List.mem_cons_self l []))
    | cons l2 rest2 =>
      have hl : '\n' ∉ l := h l (List.mem_cons_self l _)
      have hrest : ∀ x ∈ l2 :: rest2, '\n' ∉ x :=
        fun x hx => h x (List.mem_cons.mpr (Or.inr hx))
      show splitNl (l ++ ['\n'] ++ joinSep ['\n'] (l2 :: rest2)) = l :: l2 :: rest2
      rw [List.append_assoc, List.singleton_append, splitNl_append_newline l hl,
        ih (by simp) hrest]

theorem goLines_joinSep (ls : List (List Char))
    (h1 : ∀ l ∈ ls, '\n' ∉ l) (h2 : ∀ l ∈ ls, l ≠ [])
    (h3 : ∀ l ∈ ls, l.getLast? ≠ some '\r') :
    goLines (joinSep ['\n'] ls) = ls := by
  cases hls : ls with
  | nil => rfl
  | cons l rest =>
    subst hls
    unfold goLines
    rw [splitNl_joinSep (l :: rest) (by simp) h1]
    have hcond : ¬((l :: rest).getLast? = some []) := by
      intro hc
      exact h2 [] (getLast?_mem_of_eq _ _ hc) rfl
    show List.map dropTrailingCR
      (if (l :: rest).getLast? = some [] then (l :: rest).dropLast else l :: rest) = l :: rest
    rw [if_neg hcond]
    exact map_id_of_mem dropTrailingCR (l :: rest) (fun a ha => by
      unfold dropTrailingCR
      rw [if_neg (h3 a ha)])

theorem matchCmdPattern_eq_specCmdStart : ∀ l : List Char, matchCmdPattern l = specCmdStart l := by
  intro l
  induction l with
  | nil => rfl
  | cons c rest ih =>
    simp only [matchCmdPattern, specCmdStart, List.dropWhile, List.find?]
    by_cases h : reSpace c
    · simp only [h, Bool.not_true]
      exact ih
    · simp only [Bool.not_eq_true] at h
      simp [h]

theorem matchCmdPattern_ne_nil (l : List Char) (h : matchCmdPattern l = true) : l ≠ [] := by
  intro he
  subst he
  simp [matchCmdPattern, List.dropWhile] at h

/-- C7 counterexample: on the spec's example input the line
`Explanation: do this` begins with the word character `E`, so the filter
keeps it; the result is not `"ls -la\n  echo hi"` as the claim states. -/
theorem C7_filterCommandResponse_counterexample :
    filterCommandResponse "Explanation: do this\nls -la\n  echo hi" =
      "Explanation: do this\nls -la\n  echo hi" ∧
    filterCommandResponse "Explanation: do this\nls -la\n  echo hi" ≠ "ls -la\n  echo hi" := by
  constructor
  · decide
  · decide

/-- C7 (amended): the filter keeps exactly the lines whose first
non-whitespace character is a word character or a hyphen, joins survivors
with newlines and returns the empty string when no line survives; on the
example input all three lines survive (including `Explanation: do this`,
since `E` is a word character). -/
theorem C7_filterCommandResponse_amended :
    (∀ s : String, filterCommandResponse s =
        String.mk (joinSep ['\n'] ((goLines s.data).filter specCmdStart))) ∧
    (∀ s : String, (goLines s.data).all (fun l => !(specCmdStart l)) = true →
        filterCommandResponse s = "") ∧
    filterCommandResponse "Explanation: do this\nls -la\n  echo hi" =
      "Explanation: do this\nls -la\n  echo hi" := by
  refine ⟨?_, ?_, by decide⟩
  · intro s
    unfold filterCommandResponse
    rw [List.filter_congr (fun l _ => matchCmdPattern_eq_specCmdStart l)]
  · intro s h
    unfold filterCommandResponse
    have : (goLines s.data).filter matchCmdPattern = [] := by
      rw [List.filter_eq_nil_iff]
      intro a ha
      have := (List.all_eq_true.mp h) a ha
      rw [matchCmdPattern_eq_specCmdStart]
      simp only [Bool.not_eq_true'] at this
      simp [this]
    rw [this]
    rfl

/-- C7 witness: the amended theorem applied to an input none of whose lines
start with a word character or hyphen. -/
theorem C7_filterCommandResponse_amended_witness :
    filterCommandResponse "### not a command\n!!!" = "" :=
  C7_filterCommandResponse_amended.2.1 "### not a command\n!!!" (by decide)

/-- C10 counterexample: the filter is not idempotent. On `"a\r\r"` the
scanner strips one trailing carriage return per pass, so the first
application yields `"a\r"` and the second `"a"`. -/
theorem C10_filter_idempotent_counterexample :
    filterCommandResponse (filterCommandResponse "a\r\r") ≠ filterCommandResponse "a\r\r" := by
  decide

/-- C10 (amended): the filter is idempotent on every input that contains no
carriage return (the general claim fails only because the line scanner
strips one trailing `\r` per kept line on each pass). -/
theorem C10_filter_idempotent_amended (s : String) (h : '\r' ∉ s.data) :
    filterCommandResponse (filterCommandResponse s) = filterCommandResponse s := by
  unfold filterCommandResponse
  have hdata : (String.mk (joinSep ['\n'] ((goLines s.data).filter matchCmdPattern))).data =
      joinSep ['\n'] ((goLines s.data).filter matchCmdPattern) := rfl
  rw [hdata]
  have hre : goLines (joinSep ['\n'] ((goLines s.data).filter matchCmdPattern)) =
      (goLines s.data).filter matchCmdPattern := by
    refine goLines_joinSep _ ?_ ?_ ?_
    · intro l hl
      exact goLines_no_newline s.data l (List.mem_of_mem_filter hl)
    · intro l hl
      exact matchCmdPattern_ne_nil l (List.of_mem_filter hl)
    · intro l hl hlast
      exact h (goLines_mem_subset s.data l (List.mem_of_mem_filter hl) '\r'
        (getLast?_mem_of_eq l '\r' hlast))
  rw [hre, List.filter_filter]
  congr 1
  congr 1
  apply List.filter_congr
  intro a _
  cases ha : matchCmdPattern a <;> simp [ha]

/-- C10 witness: the amended theorem applied to a concrete CR-free input. -/
theorem C10_filter_idempotent_amended_witness :
    filterCommandResponse (filterCommandResponse "ls -la\n  echo hi") =
      filterCommandResponse "ls -la\n  echo hi" :=
  C10_filter_idempotent_amended "ls -la\n  echo hi" (by decide)

theorem joinSep_no_newline (sep : List Char) (hsep : '\n' ∉ sep) :
    ∀ ls : List (List Char), (∀ l ∈ ls, '\n' ∉ l) → '\n' ∉ joinSep sep ls
  | [], _ => by simp [joinSep]
  | [l], h => by
    simpa [joinSep] using h l (List.mem_cons_self l [])
  | l :: l2 :: ls, h => by
    show '\n' ∉ l ++ sep ++ joinSep sep (l2 :: ls)
    intro hmem
    rcases List.mem_append.mp hmem with hm | hm
    · rcases List.mem_append.mp hm with hm2 | hm2
      · exact h l (List.mem_cons_self l _) hm2
      · exact hsep hm2
    · exact joinSep_no_newline sep hsep (l2 :: ls)
        (fun x hx => h x (List.mem_cons.mpr (Or.inr hx))) hm

/-- C8 counterexample: the surviving lines are joined with the literal
two-character sequence backslash-`n`, not with newline characters, so the
marker-free pane text `"a\nb"` comes back as `"a\\nb"`. -/
theorem C8_screen_content_counterexample :
    getFilteredScreenContent "a\nb" = "a\\nb" ∧ ("a\\nb" : String) ≠ "a\nb" := by
  constructor
  · decide
  · decide

/-- C8 (amended): the filtered screen content equals the captured pane text
with every line containing a directive marker removed, the survivors joined
by the literal two-character sequence backslash-`n` (not by newlines); in
particular the result never contains a newline character. -/
theorem C8_screen_content_amended :
    (∀ content : String, getFilteredScreenContent content =
        String.mk (joinSep ['\\', 'n']
          ((goLines content.data).filter
            (fun l => !(directiveMarkers.any (fun m => hasSubstr m l)))))) ∧
    (∀ content : String, '\n' ∉ (getFilteredScreenContent content).data) := by
  constructor
  · intro content
    unfold getFilteredScreenContent
    congr 1
    congr 1
    apply List.filter_congr
    intro l _
    simp [directiveMarkers, Bool.not_or, Bool.and_assoc]
  · intro content
    unfold getFilteredScreenContent
    show '\n' ∉ joinSep ['\\', 'n'] _
    refine joinSep_no_newline ['\\', 'n'] (by decide) _ ?_
    intro l hl
    exact goLines_no_newline content.data l (List.mem_of_mem_filter hl)

/-! ## Directive pattern (`promptPattern`)

Embedding of the Go regexp `.*#([$@%!])\s*(.+?)\s*\.` as applied by
`FindStringSubmatch` to a single pane line (the input never contains a
newline, so `.` matches every character of the line). Go's leftmost-first
semantics are modelled directly: the leading greedy `.*` selects the
rightmost `#<glyph>` whose suffix admits a match, the `\s*` after the glyph
greedily consumes whitespace with backtracking, and `(.+?)` is lazy. -/

/-- The glyph class `[$@%!]`. -/
def isGlyph (c : Char) : Bool := c = '$' || c = '@' || c = '%' || c = '!'

/-- Whether `\s*\.` matches at the front of `u`: since `.` (the period) is
not a whitespace character this is deterministic — skip the maximal
whitespace run and require a literal period. -/
def wsDotMatches (u : List Char) : Bool :=
  match u.dropWhile reSpace with
  | c :: _ => c == '.'
  | [] => false

/-- The lazy group `(.+?)` followed by `\s*\.`: capture the shortest
non-empty prefix of `u` after which `\s*\.` matches. -/
def matchLazyPayload : List Char → Option (List Char)
  | [] => none
  | c :: rest =>
    if wsDotMatches rest then some [c]
    else (matchLazyPayload rest).map (fun p => c :: p)

/-- The greedy `\s*` before the payload: consume `k` whitespace characters,
preferring the longest run, backtracking to shorter runs when the rest of
the pattern fails there. -/
def greedyWsThenPayload : Nat → List Char → Option (List Char)
  | 0, t => matchLazyPayload t
  | k + 1, t =>
    match matchLazyPayload (t.drop (k + 1)) with
    | some p => some p
    | none => greedyWsThenPayload k t

/-- Match `\s*(.+?)\s*\.` against the text that follows `#<glyph>`,
returning the captured payload group. -/
def matchAfterGlyph (t : List Char) : Option (List Char) :=
  greedyWsThenPayload (t.takeWhile reSpace).length t

/-- The attempt to match `#([$@%!])\s*(.+?)\s*\.` at the current position:
the current character must be `#`, the next a glyph, and the remaining text
must admit the rest of the pattern. -/
def glyphMatchHere (c : Char) (rest : List Char) : Option (Char × List Char) :=
  if c = '#' then
    match rest with
    | g :: t => if isGlyph g then (matchAfterGlyph t).map (fun p => (g, p)) else none
    | [] => none
  else none

/-- `FindStringSubmatch` of `.*#([$@%!])\s*(.+?)\s*\.`: the greedy leading
`.*` selects the rightmost `#<glyph>` occurrence whose suffix matches.
Returns the two capture groups (glyph, payload). -/
def findGlyphMatch : List Char → Option (Char × List Char)
  | [] => none
  | c :: rest =>
    match findGlyphMatch rest with
    | some r => some r
    | none => glyphMatchHere c rest

/-- Embedding of `m.promptPattern.FindStringSubmatch(lastLine)` from
`monitorSession`: the glyph and payload capture groups, or `none` when the
pattern does not match the line. -/
def findDirective (line : String) : Option (Char × String) :=
  (findGlyphMatch line.data).map (fun gp => (gp.1, String.mk gp.2))

/-- The claim's characterisation of a matching line: it contains `#`, one
glyph, optional whitespace, then a non-empty payload terminated by a
literal period. -/
def hasDirectiveShape (cs : List Char) : Prop :=
  ∃ pre g ws payload suf,
    cs = pre ++ '#' :: g :: (ws ++ (payload ++ '.' :: suf)) ∧
    isGlyph g = true ∧ (∀ c ∈ ws, reSpace c = true) ∧ payload ≠ []

theorem wsDotMatches_dot (suf : List Char) : wsDotMatches ('.' :: suf) = true := by
  have h : reSpace '.' = false := by decide
  simp [wsDotMatches, List.dropWhile_cons, h]

theorem wsDotMatches_decomp : ∀ u, wsDotMatches u = true →
    ∃ ws suf, u = ws ++ '.' :: suf ∧ ∀ c ∈ ws, reSpace c = true
  | [], h => by simp [wsDotMatches] at h
  | c :: rest, h => by
    by_cases hc : reSpace c = true
    · have h' : wsDotMatches rest = true := by
        simpa [wsDotMatches, List.dropWhile_cons, hc] using h
      obtain ⟨ws, suf, he, hws⟩ := wsDotMatches_decomp rest h'
      refine ⟨c :: ws, suf, by rw [he]; rfl, ?_⟩
      intro x hx
      rcases List.mem_cons.mp hx with h1 | h1
      · exact h1 ▸ hc
      · exact hws x h1
    · have hcf : reSpace c = false := by
        cases hcc : reSpace c
        · rfl
        · exact absurd hcc hc
      have hdot : c = '.' := by
        have := h
        simp only [wsDotMatches, List.dropWhile_cons, hcf, Bool.false_eq_true, if_false] at this
        exact beq_iff_eq.mp this
      exact ⟨[], rest, by rw [hdot]; rfl, by intro x hx; simp at hx⟩

theorem wsDotMatches_of_decomp : ∀ ws, (∀ c ∈ ws, reSpace c = true) →
    ∀ suf, wsDotMatches (ws ++ '.' :: suf) = true
  | [], _, suf => wsDotMatches_dot suf
  | c :: ws', h, suf => by
    have hc : reSpace c = true := h c (List.mem_cons_self c ws')
    have ih := wsDotMatches_of_decomp ws' (fun x hx => h x (List.mem_cons.mpr (Or.inr hx))) suf
    show wsDotMatches (c :: (ws' ++ '.' :: suf)) = true
    simpa [wsDotMatches, List.dropWhile_cons, hc] using ih

theorem matchLazyPayload_decomp : ∀ u p, matchLazyPayload u = some p →
    p ≠ [] ∧ ∃ v, u = p ++ v ∧ wsDotMatches v = true
  | [], p, h => by simp [matchLazyPayload] at h
  | c :: rest, p, h => by
    unfold matchLazyPayload at h
    by_cases hw : wsDotMatches rest = true
    · rw [if_pos hw] at h
      have hp : p = [c] := by injection h with h'; exact h'.symm
      subst hp
      exact ⟨by simp, rest, by simp, hw⟩
    · rw [if_neg hw] at h
      obtain ⟨p', hp', hpc⟩ := Option.map_eq_some'.mp h
      obtain ⟨hne, v, hv, hwv⟩ := matchLazyPayload_decomp rest p' hp'
      subst hpc
      exact ⟨by simp, v, by rw [hv]; rfl, hwv⟩

theorem matchLazyPayload_isSome_of : ∀ a, a ≠ [] → ∀ b, wsDotMatches b = true →
    (matchLazyPayload (a ++ b)).isSome = true
  | [], ha, _, _ => absurd rfl ha
  | x :: a', _, b, hb => by
    show (matchLazyPayload (x :: (a' ++ b))).isSome = true
    unfold matchLazyPayload
    by_cases h : wsDotMatches (a' ++ b) = true
    · simp [h]
    · have ha' : a' ≠ [] := by
        intro he
        rw [he, List.nil_append] at h
        exact h hb
      have hs := matchLazyPayload_isSome_of a' ha' b hb
      rw [if_neg h]
      obtain ⟨q, hq⟩ := Option.isSome_iff_exists.mp hs
      simp [hq]

theorem greedyWsThenPayload_decomp : ∀ k t p, greedyWsThenPayload k t = some p →
    ∃ j, j ≤ k ∧ matchLazyPayload (t.drop j) = some p
  | 0, t, p, h => ⟨0, Nat.le_refl 0, by simpa using h⟩
  | k + 1, t, p, h => by
    unfold greedyWsThenPayload at h
    cases hm : matchLazyPayload (t.drop (k + 1)) with
    | some q =>
      rw [hm] at h
      have hq : q = p := by injection h
      exact ⟨k + 1, Nat.le_refl _, by rw [hm, hq]⟩
    | none =>
      rw [hm] at h
      obtain ⟨j, hj, hmj⟩ := greedyWsThenPayload_decomp k t p h
      exact ⟨j, Nat.le_succ_of_le hj, hmj⟩

theorem greedyWsThenPayload_isSome : ∀ k t, (matchLazyPayload t).isSome = true →
    (greedyWsThenPayload k t).isSome = true
  | 0, t, h => h
  | k + 1, t, h => by
    unfold greedyWsThenPayload
    cases hm : matchLazyPayload (t.drop (k + 1)) with
    | some q => simp
    | none => exact greedyWsThenPayload_isSome k t h

theorem take_all_space (t : List Char) (j : Nat) (hj : j ≤ (t.takeWhile reSpace).length) :
    ∀ c ∈ t.take j, reSpace c = true := by
  intro c hc
  have hsplit : t.take j = (t.takeWhile reSpace).take j := by
    conv_lhs => rw [← List.takeWhile_append_dropWhile (p := reSpace) (l := t)]
    rw [List.take_append_eq_append_take, Nat.sub_eq_zero_of_le hj, List.take_zero,
      List.append_nil]
  rw [hsplit] at hc
  exact List.mem_takeWhile_imp (List.take_subset j _ hc)

theorem matchAfterGlyph_decomp (t p : List Char) (h : matchAfterGlyph t = some p) :
    ∃ ws payload suf, t = ws ++ (payload ++ '.' :: suf) ∧
      (∀ c ∈ ws, reSpace c = true) ∧ payload ≠ [] := by
  obtain ⟨j, hj, hmj⟩ := greedyWsThenPayload_decomp _ t p h
  obtain ⟨hne, v, hv, hwv⟩ := matchLazyPayload_decomp _ p hmj
  obtain ⟨ws2, suf, hv2, -⟩ := wsDotMatches_decomp v hwv
  refine ⟨t.take j, p ++ ws2, suf, ?_, take_all_space t j hj, by simp [hne]⟩
  conv_lhs => rw [← List.take_append_drop j t]
  rw [hv, hv2]
  simp [List.append_assoc]

theorem matchAfterGlyph_isSome (ws payload suf : List Char) (hp : payload ≠ []) :
    (matchAfterGlyph (ws ++ (payload ++ '.' :: suf))).isSome = true := by
  apply greedyWsThenPayload_isSome
  have happ : ws ++ (payload ++ '.' :: suf) = (ws ++ payload) ++ '.' :: suf := by
    simp [List.append_assoc]
  rw [happ]
  exact matchLazyPayload_isSome_of (ws ++ payload) (by simp [hp]) ('.' :: suf)
    (wsDotMatches_dot suf)

theorem findGlyphMatch_cons (c : Char) (rest : List Char) :
    findGlyphMatch (c :: rest) =
      match findGlyphMatch rest with
      | some r => some r
      | none => glyphMatchHere c rest := rfl

theorem glyphMatchHere_eq (g : Char) (t : List Char) :
    glyphMatchHere '#' (g :: t) =
      (if isGlyph g then (matchAfterGlyph t).map (fun p => (g, p)) else none) := rfl

theorem glyphMatchHere_not_hash (c : Char) (rest : List Char) (h : ¬(c = '#')) :
    glyphMatchHere c rest = none := by
  unfold glyphMatchHere
  rw [if_neg h]

theorem glyphMatchHere_nil (c : Char) : glyphMatchHere c [] = none := by
  unfold glyphMatchHere
  split <;> rfl

theorem glyphMatchHere_isSome_iff (c : Char) (rest : List Char) :
    (glyphMatchHere c rest).isSome = true ↔
      ∃ g t, c :: rest = '#' :: g :: t ∧ isGlyph g = true ∧
        (matchAfterGlyph t).isSome = true := by
  constructor
  · intro h
    by_cases hc : c = '#'
    · subst hc
      cases hrest : rest with
      | nil =>
        rw [hrest, glyphMatchHere_nil] at h
        simp at h
      | cons g t =>
        rw [hrest, glyphMatchHere_eq] at h
        by_cases hg : isGlyph g = true
        · rw [if_pos hg] at h
          refine ⟨g, t, rfl, hg, ?_⟩
          cases hm : matchAfterGlyph t with
          | none => rw [hm] at h; simp at h
          | some p => simp
        · rw [if_neg hg] at h
          simp at h
    · rw [glyphMatchHere_not_hash c rest hc] at h
      simp at h
  · rintro ⟨g, t, he, hg, hm⟩
    have hc : c = '#' := by injection he
    have hrest : rest = g :: t := by injection he with h1 h2
    subst hc
    subst hrest
    rw [glyphMatchHere_eq, if_pos hg]
    obtain ⟨p, hp⟩ := Option.isSome_iff_exists.mp hm
    simp [hp]

theorem findGlyphMatch_isSome_iff : ∀ cs : List Char,
    (findGlyphMatch cs).isSome = true ↔
      ∃ pre g t, cs = pre ++ '#' :: g :: t ∧ isGlyph g = true ∧
        (matchAfterGlyph t).isSome = true
  | [] => by
    constructor
    · intro h; simp [findGlyphMatch] at h
    · rintro ⟨pre, g, t, he, -, -⟩
      exact absurd he (by simp)
  | c :: rest => by
    rw [findGlyphMatch_cons]
    constructor
    · intro h
      cases hr : findGlyphMatch rest with
      | some r =>
        obtain ⟨pre, g, t, he, hg, hm⟩ := (findGlyphMatch_isSome_iff rest).mp (by simp [hr])
        exact ⟨c :: pre, g, t, by rw [he]; rfl, hg, hm⟩
      | none =>
        rw [hr] at h
        simp only at h
        obtain ⟨g, t, he, hg, hm⟩ := (glyphMatchHere_isSome_iff c rest).mp h
        exact ⟨[], g, t, by rw [← he]; rfl, hg, hm⟩
    · rintro ⟨pre, g, t, he, hg, hm⟩
      cases hr : findGlyphMatch rest with
      | some r => simp
      | none =>
        simp only
        cases pre with
        | nil =>
          simp only [List.nil_append] at he
          refine (glyphMatchHere_isSome_iff c rest).mpr ⟨g, t, he, hg, hm⟩
        | cons c' pre' =>
          have hrest : rest = pre' ++ '#' :: g :: t := by injection he with h1 h2
          have hsome : (findGlyphMatch rest).isSome = true :=
            (findGlyphMatch_isSome_iff rest).mpr ⟨pre', g, t, hrest, hg, hm⟩
          rw [hr] at hsome
          simp at hsome

theorem findGlyphMatch_isSome_iff_shape (cs : List Char) :
    (findGlyphMatch cs).isSome = true ↔ hasDirectiveShape cs := by
  rw [findGlyphMatch_isSome_iff]
  constructor
  · rintro ⟨pre, g, t, he, hg, hm⟩
    obtain ⟨p, hp⟩ := Option.isSome_iff_exists.mp hm
    obtain ⟨ws, payload, suf, ht, hws, hpay⟩ := matchAfterGlyph_decomp t p hp
    exact ⟨pre, g, ws, payload, suf, by rw [he, ht], hg, hws, hpay⟩
  · rintro ⟨pre, g, ws, payload, suf, he, hg, hws, hpay⟩
    exact ⟨pre, g, ws ++ (payload ++ '.' :: suf), he, hg,
      matchAfterGlyph_isSome ws payload suf hpay⟩

theorem findDirective_isSome_eq (line : String) :
    (findDirective line).isSome = (findGlyphMatch line.data).isSome := by
  unfold findDirective
  cases findGlyphMatch line.data <;> rfl

/-- C1: on a pane line (which contains no newline), the directive extractor
matches exactly the lines containing `#`, one glyph from `{$,@,%,!}`,
optional whitespace and a non-empty payload terminated by a literal period;
a line with no period yields no directive; and the example line
`... #$ list files .` parses to glyph `$` (the plain directive kind, since
it is neither `@`, `%` nor `!`) with payload `"list files"`, surrounding
whitespace trimmed. -/
theorem C1_directive_pattern :
    (∀ line : String, '\n' ∉ line.data →
        ((findDirective line).isSome = true ↔ hasDirectiveShape line.data)) ∧
    (∀ line : String, '\n' ∉ line.data → '.' ∉ line.data → findDirective line = none) ∧
    findDirective "... #$ list files ." = some ('$', "list files") := by
  have hiff : ∀ line : String,
      (findDirective line).isSome = true ↔ hasDirectiveShape line.data := by
    intro line
    rw [findDirective_isSome_eq]
    exact findGlyphMatch_isSome_iff_shape line.data
  refine ⟨fun line _ => hiff line, ?_, by decide⟩
  intro line hnl hdot
  cases hf : findDirective line with
  | none => rfl
  | some r =>
    exfalso
    have hshape : hasDirectiveShape line.data := (hiff line).mp (by rw [hf]; rfl)
    obtain ⟨pre, g, ws, payload, suf, he, -, -, -⟩ := hshape
    apply hdot
    rw [he]
    simp

/-- C1 witness: the characterisation applied at the spec's example line. -/
theorem C1_directive_pattern_witness :
    (findDirective "... #$ list files .").isSome = true ↔
      hasDirectiveShape "... #$ list files .".data :=
  C1_directive_pattern.1 "... #$ list files ." (by decide)

/-! ## JSON document model (gabs containers)

The conversation history (`SessionHistory`) is a `gabs.Container`, i.e. a
dynamically-typed JSON document. The operations below model the gabs calls
the Go code makes (`ExistsP`, `Path(...).Children()`, `ArrayAppendP`,
`DeleteP`), restricted to the behaviours these calls can exercise: paths
walk object keys and decimal array indices, and errors (which every caller
ignores) leave the document unchanged. -/

inductive Json where
  | null
  | bool (b : Bool)
  | num (n : Int)
  | str (s : String)
  | arr (xs : List Json)
  | obj (fields : List (String × Json))

/-- Decimal digit to character, as in Go's `%d` rendering. -/
def digitChar (d : Nat) : Char :=
  if d = 0 then '0' else if d = 1 then '1' else if d = 2 then '2'
  else if d = 3 then '3' else if d = 4 then '4' else if d = 5 then '5'
  else if d = 6 then '6' else if d = 7 then '7' else if d = 8 then '8' else '9'

/-- Fuel-driven decimal rendering (the fuel is an upper bound on the value,
so the zero-fuel branch is only reached for single-digit values). -/
def renderNatAux : Nat → Nat → List Char → List Char
  | 0, n, acc => digitChar (n % 10) :: acc
  | fuel + 1, n, acc =>
    if n < 10 then digitChar n :: acc
    else renderNatAux fuel (n / 10) (digitChar (n % 10) :: acc)

/-- Model of Go's `fmt.Sprintf("%d", n)` for a non-negative value. -/
def renderNat (n : Nat) : String := String.mk (renderNatAux n n [])

def digitVal (c : Char) : Nat := c.toNat - 48

def parseNatAux : List Char → Nat → Option Nat
  | [], acc => some acc
  | c :: rest, acc => if c.isDigit then parseNatAux rest (acc * 10 + digitVal c) else none

/-- Model of `strconv.Atoi` restricted to non-negative decimal numerals
(the only array-index form the repo's gabs paths produce); anything else,
including a leading minus sign, fails. -/
def parseNatSeg (s : String) : Option Nat :=
  if s.data.isEmpty then none else parseNatAux s.data 0

theorem digitChar_isDigit (d : Nat) (hd : d < 10) : (digitChar d).isDigit = true := by
  interval_cases d <;> decide

theorem digitVal_digitChar (d : Nat) (hd : d < 10) : digitVal (digitChar d) = d := by
  interval_cases d <;> decide

theorem parseNatAux_renderNatAux : ∀ fuel n a, n ≤ fuel →
    parseNatAux (renderNatAux fuel n a) 0 = parseNatAux a n
  | 0, n, a, h => by
    have hn : n = 0 := Nat.le_zero.mp h
    subst hn
    show parseNatAux (digitChar (0 % 10) :: a) 0 = parseNatAux a 0
    have h0 : (0 : Nat) % 10 = 0 := rfl
    rw [h0]
    simp [parseNatAux, digitChar_isDigit 0 (by omega), digitVal_digitChar 0 (by omega)]
  | fuel + 1, n, a, h => by
    unfold renderNatAux
    by_cases hlt : n < 10
    · rw [if_pos hlt]
      simp [parseNatAux, digitChar_isDigit n hlt, digitVal_digitChar n hlt]
    · rw [if_neg hlt]
      have hdiv : n / 10 ≤ fuel := by
        have : n / 10 < n := Nat.div_lt_self (by omega) (by omega)
        omega
      rw [parseNatAux_renderNatAux fuel (n / 10) (digitChar (n % 10) :: a) hdiv]
      have hmod : n % 10 < 10 := Nat.mod_lt n (by omega)
      simp only [parseNatAux, digitChar_isDigit (n % 10) hmod, if_pos,
        digitVal_digitChar (n % 10) hmod]
      have : n / 10 * 10 + n % 10 = n := by omega
      rw [this]

theorem renderNatAux_ne_nil : ∀ fuel n acc, renderNatAux fuel n acc ≠ []
  | 0, n, acc => by simp [renderNatAux]
  | fuel + 1, n, acc => by
    unfold renderNatAux
    by_cases hlt : n < 10
    · simp [hlt]
    · rw [if_neg hlt]
      exact renderNatAux_ne_nil fuel (n / 10) (digitChar (n % 10) :: acc)

theorem parseNatSeg_renderNat (n : Nat) : parseNatSeg (renderNat n) = some n := by
  unfold parseNatSeg renderNat
  have hne : (String.mk (renderNatAux n n [])).data.isEmpty = false := by
    have := renderNatAux_ne_nil n n []
    cases hr : renderNatAux n n [] with
    | nil => exact absurd hr this
    | cons c cs => rfl
  rw [hne]
  show parseNatAux (renderNatAux n n []) 0 = some n
  rw [parseNatAux_renderNatAux n n [] (Nat.le_refl n)]
  rfl

/-- One step of a gabs `Path` lookup: object fields are looked up by key;
arrays are indexed by the decimal value of the segment. -/
def jsonStep (j : Json) (seg : String) : Option Json :=
  match j with
  | .obj fields => assocLookup fields seg
  | .arr xs =>
    match parseNatSeg seg with
    | some n => xs[n]?
    | none => none
  | _ => none

/-- gabs `Container.Search` / `Path` along a dot-path. -/
def searchPath (j : Json) : List String → Option Json
  | [] => some j
  | seg :: rest =>
    match jsonStep j seg with
    | some child => searchPath child rest
    | none => none

/-- gabs `ExistsP`. -/
def existsP (j : Json) (path : List String) : Bool := (searchPath j path).isSome

/-- gabs `Children()`: elements of an array, values of an object, nothing
otherwise. -/
def jsonChildren : Json → List Json
  | .arr xs => xs
  | .obj fields => fields.map (fun p => p.2)
  | _ => []

/-- `Path(...).Children()`, with a missing path yielding no children. -/
def pathChildren (j : Json) (path : List String) : List Json :=
  match searchPath j path with
  | some c => jsonChildren c
  | none => []

/-- gabs `ArrayAppendP` (via `Search` and `Set`): append to the array at
the path; an existing non-array, non-null value is converted into a
one-element array first; missing object levels are created; a collision
with a non-object level leaves the document unchanged (gabs returns an
error there, which every caller ignores). -/
def arrayAppendAux (v : Json) : Option Json → List String → Json
  | cur, [] =>
    match cur with
    | some (.arr xs) => .arr (xs ++ [v])
    | some .null => .arr [v]
    | some j => .arr [j, v]
    | none => .arr [v]
  | cur, seg :: rest =>
    match cur with
    | some (.obj fields) =>
      Json.obj (upsert seg (arrayAppendAux v (assocLookup fields seg) rest) fields)
    | none => Json.obj [(seg, arrayAppendAux v none rest)]
    | some j => j

def arrayAppendP (j : Json) (v : Json) (path : List String) : Json :=
  arrayAppendAux v (some j) path

/-- gabs `DeleteP`: delete the object key or array element denoted by the
final path segment; failures (missing key, index out of range, non-container
level) leave the document unchanged, matching the ignored error return. -/
def deleteAtP (j : Json) : List String → Json
  | [] => j
  | [seg] =>
    match j with
    | .obj fields => .obj (fields.filter (fun p => p.1 != seg))
    | .arr xs =>
      match parseNatSeg seg with
      | some n => .arr (xs.eraseIdx n)
      | none => .arr xs
    | other => other
  | seg :: rest =>
    match j with
    | .obj fields =>
      .obj (fields.map (fun p => if p.1 = seg then (p.1, deleteAtP p.2 rest) else p))
    | .arr xs =>
      match parseNatSeg seg with
      | some n =>
        match xs[n]? with
        | some x => .arr (xs.set n (deleteAtP x rest))
        | none => .arr xs
      | none => .arr xs
    | other => other

/-- `gabs.New()`: an empty JSON object. -/
def gabsNew : Json := Json.obj []

/-- Embedding of `OphanimClient.UndoLastInteraction`. -/
def undoLastInteraction (hist : Json) : Json :=
  if existsP hist ["output", "data"] then
    let numberOfExchanges := (pathChildren hist ["output", "data"]).length
    if numberOfExchanges > 1 then
      deleteAtP hist ["output", "data", renderNat (numberOfExchanges - 1)]
    else hist
  else hist

/-- The history append performed by `PromptChatbot` on a completed round:
`o.SessionHistory.ArrayAppendP(exchange, "output.data")`. -/
def appendExchange (hist : Json) (exchange : Json) : Json :=
  arrayAppendP hist exchange ["output", "data"]

/-- The canonical shape of a history built by successive `appendExchange`
calls starting from `gabs.New()`. -/
def histShape : List Json → Json
  | [] => gabsNew
  | es => Json.obj [("output", Json.obj [("data", Json.arr es)])]

theorem eraseIdx_length_pred {α : Type} : ∀ l : List α, l.eraseIdx (l.length - 1) = l.dropLast
  | [] => rfl
  | [x] => rfl
  | x :: y :: ys => by
    show (x :: y :: ys).eraseIdx ((y :: ys).length) = (x :: y :: ys).dropLast
    have h1 : (x :: y :: ys).eraseIdx ((y :: ys).length) =
        x :: (y :: ys).eraseIdx ((y :: ys).length - 1) := rfl
    rw [h1, eraseIdx_length_pred (y :: ys)]
    rfl

theorem appendExchange_histShape : ∀ (es : List Json) (e : Json),
    appendExchange (histShape es) e = histShape (es ++ [e])
  | [], _ => rfl
  | _ :: _, _ => rfl

theorem undoLastInteraction_histShape (es : List Json) :
    undoLastInteraction (histShape es) =
      histShape (if es.length > 1 then es.dropLast else es) := by
  match es with
  | [] => rfl
  | [x] => rfl
  | x :: y :: ys =>
    have hex : existsP (histShape (x :: y :: ys)) ["output", "data"] = true := rfl
    have hlen : (pathChildren (histShape (x :: y :: ys)) ["output", "data"]).length
        = ys.length + 2 := by
      show (jsonChildren (Json.arr (x :: y :: ys))).length = ys.length + 2
      simp [jsonChildren]
    unfold undoLastInteraction
    rw [hex]
    simp only [if_true, hlen]
    rw [if_pos (by omega : ys.length + 2 > 1), if_pos (by simp : (x :: y :: ys).length > 1)]
    have hstep : deleteAtP (histShape (x :: y :: ys))
        ["output", "data", renderNat (ys.length + 2 - 1)] =
        histShape ((x :: y :: ys).dropLast) := by
      show Json.obj [("output",
          Json.obj [("data", deleteAtP (Json.arr (x :: y :: ys))
            [renderNat (ys.length + 2 - 1)])])] = histShape ((x :: y :: ys).dropLast)
      have hseg : deleteAtP (Json.arr (x :: y :: ys)) [renderNat (ys.length + 2 - 1)] =
          Json.arr ((x :: y :: ys).eraseIdx (ys.length + 1)) := by
        show (match parseNatSeg (renderNat (ys.length + 2 - 1)) with
          | some n => Json.arr ((x :: y :: ys).eraseIdx n)
          | none => Json.arr (x :: y :: ys)) = Json.arr ((x :: y :: ys).eraseIdx (ys.length + 1))
        rw [parseNatSeg_renderNat]
        show Json.arr ((x :: y :: ys).eraseIdx (ys.length + 2 - 1)) =
          Json.arr ((x :: y :: ys).eraseIdx (ys.length + 1))
        have harith : ys.length + 2 - 1 = ys.length + 1 := by omega
        rw [harith]
      rw [hseg]
      have herase : (x :: y :: ys).eraseIdx (ys.length + 1) = (x :: y :: ys).dropLast := by
        have : ys.length + 1 = (x :: y :: ys).length - 1 := by simp
        rw [this, eraseIdx_length_pred]
      rw [herase]
      cases hd : (x :: y :: ys).dropLast with
      | nil =>
        exfalso
        have : (x :: y :: ys).dropLast.length = ys.length + 1 := by simp
        rw [hd] at this
        simp at this
      | cons d ds => rfl
    exact hstep

/-- C5: `undoLastInteraction` on a history of appended exchanges removes
exactly the most recent exchange when more than one exchange is present and
is a no-op for zero or one exchange; appending E1, E2, E3 and undoing twice
yields the one-exchange history [E1], and a third undo changes nothing. -/
theorem C5_undo_last_interaction :
    (∀ es : List Json, undoLastInteraction (histShape es) =
        histShape (if es.length > 1 then es.dropLast else es)) ∧
    (∀ e1 e2 e3 : Json,
      undoLastInteraction (undoLastInteraction
          (appendExchange (appendExchange (appendExchange gabsNew e1) e2) e3)) =
        appendExchange gabsNew e1 ∧
      undoLastInteraction (undoLastInteraction (undoLastInteraction
          (appendExchange (appendExchange (appendExchange gabsNew e1) e2) e3))) =
        undoLastInteraction (undoLastInteraction
          (appendExchange (appendExchange (appendExchange gabsNew e1) e2) e3))) := by
  refine ⟨undoLastInteraction_histShape, ?_⟩
  intro e1 e2 e3
  have h0 : appendExchange gabsNew e1 = histShape [e1] := appendExchange_histShape [] e1
  have h1 : appendExchange (appendExchange gabsNew e1) e2 = histShape [e1, e2] := by
    rw [h0]
    exact appendExchange_histShape [e1] e2
  have h2 : appendExchange (appendExchange (appendExchange gabsNew e1) e2) e3 =
      histShape [e1, e2, e3] := by
    rw [h1]
    exact appendExchange_histShape [e1, e2] e3
  have hu1 : undoLastInteraction (histShape [e1, e2, e3]) = histShape [e1, e2] := by
    rw [undoLastInteraction_histShape]
    rfl
  have hu2 : undoLastInteraction (histShape [e1, e2]) = histShape [e1] := by
    rw [undoLastInteraction_histShape]
    rfl
  have hu3 : undoLastInteraction (histShape [e1]) = histShape [e1] := by
    rw [undoLastInteraction_histShape]
    rfl
  constructor
  · rw [h2, hu1, hu2, h0]
  · rw [h2, hu1, hu2, hu3]

/-! ## Backend protocol client (`OphanimClient`, `PromptChatbot`) -/

/-- Model of Go `unicode.IsSpace` restricted to the Latin-1 white space
characters (the only ones this system's inputs can contain). -/
def goUniSpace (c : Char) : Bool :=
  c = ' ' || c = '\t' || c = '\n' || c = '\x0b' || c = '\x0c' || c = '\r' ||
  c = '\x85' || c = '\xa0'

/-- Embedding of `strings.TrimSpace`. -/
def goTrimSpace (s : String) : String :=
  String.mk (((s.data.dropWhile goUniSpace).reverse.dropWhile goUniSpace).reverse)

/-- Embedding of `strings.Contains`. -/
def containsStr (s sub : String) : Bool := hasSubstr sub.data s.data

/-- The sanitisation in `constructClientMessage`: remove newlines, carriage
returns, NUL, SUB, single quotes and double quotes. -/
def sanitizeInput (s : String) : String :=
  String.mk (s.data.filter (fun c =>
    !(c = '\n' || c = '\r' || c = '\x00' || c = '\x1a' || c = '\'' || c = '"')))

/-- Minimal JSON string escaping (quote and backslash), standing in for Go
`encoding/json`'s escaping on the fragments this repo serialises. -/
def escapeJson (s : String) : String :=
  String.mk ((s.data.map (fun c =>
    if c = '"' then ['\\', '"'] else if c = '\\' then ['\\', '\\'] else [c])).flatten)

mutual
/-- gabs `Container.String()`: serialise the document to JSON text. -/
def Json.render : Json → String
  | .null => "null"
  | .bool true => "true"
  | .bool false => "false"
  | .num n => toString n
  | .str s => "\"" ++ escapeJson s ++ "\""
  | .arr xs => "[" ++ renderJsonList xs ++ "]"
  | .obj fields => "\x7b" ++ renderJsonFields fields ++ "\x7d"

def renderJsonList : List Json → String
  | [] => ""
  | [x] => Json.render x
  | x :: xs => Json.render x ++ "," ++ renderJsonList xs

def renderJsonFields : List (String × Json) → String
  | [] => ""
  | [(k, v)] => "\"" ++ escapeJson k ++ "\":" ++ Json.render v
  | (k, v) :: fs => "\"" ++ escapeJson k ++ "\":" ++ Json.render v ++ "," ++ renderJsonFields fs
end

/-- The `OphanimClient` state. -/
structure OphanimClient where
  sessionHash : String
  sessionHistory : Json
  ragMode : Bool
  ragQuery : String
  ragSource : String
  saveDir : String

/-- Embedding of `OphanimClient.constructClientMessage`: sanitise the
input, then build the submission message; a continuation with no prior
history produces the empty string (no message). -/
def constructClientMessage (o : OphanimClient) (userInput : String)
    (isContinuation : Bool) : String :=
  let u := sanitizeInput userInput
  let ragStr := if o.ragMode then "true" else "false"
  if isContinuation = false then
    "\x7b\"data\":[\"\",\"" ++ o.ragQuery ++ "\",\"" ++ o.ragSource ++ "\",null,[[\"" ++
      (goTrimSpace u) ++ "\",\"\"]]," ++ ragStr ++
      "],\"event_data\":null,\"fn_index\":6,\"session_hash\":\"" ++ o.sessionHash ++ "\"\x7d"
  else
    if existsP o.sessionHistory ["output", "data"] then
      let rendered := (match searchPath o.sessionHistory ["output", "data"] with
        | some j => Json.render j
        | none => "null")
      let lastMessage := (rendered.drop 1).dropRight 1
      "\x7b\"data\":[\"\",\"" ++ o.ragQuery ++ "\",\"" ++ o.ragSource ++ "\",null,[" ++
        lastMessage ++ ",[\"" ++ (goTrimSpace u) ++ "\",\"\"]]," ++ ragStr ++
        "],\"event_data\":null,\"fn_index\":6,\"session_hash\":\"" ++ o.sessionHash ++ "\"\x7d"
    else ""

/-- The inbound control-message cues, matched by `strings.Contains`. -/
def sendHashCue : String := "\"msg\":\"send_hash\""

def sendDataCue : String := "\"msg\":\"send_data\""

def processStartsCue : String := "\"msg\":\"process_starts\""

def processGeneratingCue : String := "\"msg\":\"process_generating\""

def processCompletedCue : String := "\"msg\":\"process_completed\""

/-- A failed channel read: either a websocket close error carrying its
close code, or some other error. -/
inductive ReadErr where
  | closeErr (code : Int)
  | otherErr

/-- One modelled channel read: a message or a read failure. -/
inductive ReadResult where
  | msg (s : String)
  | err (e : ReadErr)

/-- gorilla/websocket `IsUnexpectedCloseError`: true iff the error is a
close error whose code is not in the expected list. -/
def isUnexpectedCloseError (e : ReadErr) (expectedCodes : List Int) : Bool :=
  match e with
  | .closeErr code => !(expectedCodes.contains code)
  | .otherErr => false

/-- Outcome of one `PromptChatbot` call: a normal return carrying the
response text and the session history after the call, process termination
(`log.Fatal` or a runtime panic), or exhaustion of the modelled read
stream while the client is still blocked on a read. -/
inductive PromptResult where
  | ok (modelResponse : String) (hist : Json)
  | fatal
  | blocked

/-- The `process_completed` branch of `PromptChatbot`: parse the payload,
append the newest exchange of `output.data.0` to the history, and extract
its generated text; a parse failure is `log.Fatal`, and an out-of-range
`Children()[1]` index or a non-string entry is a runtime panic, all
modelled as `fatal`. -/
def handleCompleted (parse : String → Option Json) (hist : Json) (message : String) :
    PromptResult :=
  match parse message with
  | none => .fatal
  | some parsedMessage =>
    if existsP parsedMessage ["output", "data"] then
      let lastEntry : Int := ((pathChildren parsedMessage ["output", "data", "0"]).length : Int) - 1
      let ex := pathChildren parsedMessage ["output", "data", "0", toString lastEntry]
      let hist2 := arrayAppendP hist (Json.arr ex) ["output", "data"]
      match ex[1]? with
      | some (Json.str resp) => .ok resp hist2
      | some _ => .fatal
      | none => .fatal
    else .ok "No response from server" hist

/-- The streaming read loop of `OphanimClient.PromptChatbot`, driven by the
modelled sequence of reads; `writeOk` is the outcome of channel writes
(`log.Fatal` on failure). A progress cue `continue`s, skipping the
remaining checks of that iteration, while the `send_data` branch falls
through to them; an unexpected close error (any code but 1001,
`CloseGoingAway`) returns the partial result, every other read failure is
`log.Fatal`. -/
def promptChatbotLoop (parse : String → Option Json) (writeOk : Bool) (o : OphanimClient)
    (userInput : String) (hasChatbotSession : Bool) (modelResponse : String) :
    List ReadResult → PromptResult
  | [] => .blocked
  | .err e :: _ =>
    if isUnexpectedCloseError e [1001] then .ok modelResponse o.sessionHistory else .fatal
  | .msg message :: rest =>
    if containsStr message sendDataCue = true ∧
        constructClientMessage o userInput hasChatbotSession ≠ "" ∧ writeOk = false then
      .fatal
    else if containsStr message processStartsCue = true then
      promptChatbotLoop parse writeOk o userInput hasChatbotSession modelResponse rest
    else if containsStr message processGeneratingCue = true then
      promptChatbotLoop parse writeOk o userInput hasChatbotSession modelResponse rest
    else if containsStr message processCompletedCue = true then
      handleCompleted parse o.sessionHistory message
    else
      promptChatbotLoop parse writeOk o userInput hasChatbotSession modelResponse rest

/-- The environment of one call: the dial outcome, the write outcome, the
JSON parser, and the sequence of channel reads. -/
structure WsEnv where
  dialOk : Bool
  writeOk : Bool
  parse : String → Option Json
  events : List ReadResult

/-- Embedding of `PromptChatbot` including `initWSClient`: dial
(`log.Fatal` on failure), handshake read (a read error here returns from
`initWSClient` early and execution falls into the loop), the `send_hash`
check and the initial write (`log.Fatal` on failure), then the streaming
loop with `modelResponse` starting as the empty string. -/
def promptChatbot (o : OphanimClient) (userInput : String) (hasChatbotSession : Bool)
    (env : WsEnv) : PromptResult :=
  if env.dialOk = false then .fatal
  else
    match env.events with
    | [] => .blocked
    | .err _ :: rest =>
      promptChatbotLoop env.parse env.writeOk o userInput hasChatbotSession "" rest
    | .msg message :: rest =>
      if containsStr message sendHashCue = false then .fatal
      else if env.writeOk = false then .fatal
      else promptChatbotLoop env.parse env.writeOk o userInput hasChatbotSession "" rest

/-- A streaming-phase message that keeps the loop waiting: its `send_data`
write (if any) succeeds or sends nothing, and it is not treated as a
completion (either a progress cue fires first, or it contains no
completion cue). -/
def benignMsg (o : OphanimClient) (userInput : String) (hasChatbotSession : Bool)
    (writeOk : Bool) (e : ReadResult) : Prop :=
  match e with
  | .msg s =>
    (containsStr s sendDataCue = true →
      (constructClientMessage o userInput hasChatbotSession = "" ∨ writeOk = true)) ∧
    (containsStr s processStartsCue = true ∨ containsStr s processGeneratingCue = true ∨
      containsStr s processCompletedCue = false)
  | .err _ => False

/-- A concrete client state, as `NewOphanimClient` would build it. -/
def c2Client : OphanimClient :=
  ⟨"abcdef01234", gabsNew, false, "Current Events", "Google", "/home/u/.config/ophanim/"⟩

/-- C2 counterexample: when the channel closes with the expected/normal
close code 1001 (`CloseGoingAway`, the one code the call lists as
expected) while the client waits in the streaming phase, the call is
`log.Fatal` — it does not return the (empty) partial result. The condition
in the source is inverted: the partial result is returned exactly when
`IsUnexpectedCloseError` is true. -/
theorem C2_expected_close_counterexample :
    promptChatbot c2Client "User Prompt: ls ." false
      ⟨true, true, fun _ => none,
        [.msg "\x7b\"msg\":\"send_hash\"\x7d", .err (.closeErr 1001)]⟩ =
      PromptResult.fatal := by
  rfl

/-- C2 (amended): in the streaming phase, a close error with any code other
than 1001 returns the partial result without error and leaves the history
untouched (the partial result is necessarily the value accumulated so far,
which is always empty because a completed round returns immediately); an
expected (1001) closure and any other read failure are fatal. -/
theorem C2_close_handling_amended :
    (∀ (parse : String → Option Json) (writeOk : Bool) (o : OphanimClient)
        (userInput : String) (hasChatbotSession : Bool)
        (pre : List ReadResult) (code : Int) (r : String),
      (∀ e ∈ pre, benignMsg o userInput hasChatbotSession writeOk e) →
      code ≠ 1001 →
      promptChatbotLoop parse writeOk o userInput hasChatbotSession r
          (pre ++ [.err (.closeErr code)]) = .ok r o.sessionHistory) ∧
    (∀ (parse : String → Option Json) (writeOk : Bool) (o : OphanimClient)
        (userInput : String) (hasChatbotSession : Bool) (r : String)
        (rest : List ReadResult),
      promptChatbotLoop parse writeOk o userInput hasChatbotSession r
          (.err (.closeErr 1001) :: rest) = .fatal) ∧
    (∀ (parse : String → Option Json) (writeOk : Bool) (o : OphanimClient)
        (userInput : String) (hasChatbotSession : Bool) (r : String)
        (rest : List ReadResult),
      promptChatbotLoop parse writeOk o userInput hasChatbotSession r
          (.err .otherErr :: rest) = .fatal) := by
  refine ⟨?_, ?_, ?_⟩
  · intro parse writeOk o userInput hasChatbotSession pre code r hben hcode
    induction pre with
    | nil =>
      show promptChatbotLoop parse writeOk o userInput hasChatbotSession r
        [.err (.closeErr code)] = .ok r o.sessionHistory
      unfold promptChatbotLoop
      have hun : isUnexpectedCloseError (.closeErr code) [1001] = true := by
        show (!([1001] : List Int).contains code) = true
        have hc : (([1001] : List Int).contains code) = false := by
          simp only [List.contains_cons, List.contains_nil, Bool.or_false,
            beq_eq_false_iff_ne]
          exact hcode
        rw [hc]
        rfl
      rw [hun]
      rfl
    | cons e pre' ih =>
      have hbe : benignMsg o userInput hasChatbotSession writeOk e :=
        hben e (List.mem_cons_self e pre')
      have hben' : ∀ x ∈ pre', benignMsg o userInput hasChatbotSession writeOk x :=
        fun x hx => hben x (List.mem_cons.mpr (Or.inr hx))
      cases e with
      | err e' => exact absurd hbe (by simp [benignMsg])
      | msg s =>
        obtain ⟨hsend, hcue⟩ := hbe
        show promptChatbotLoop parse writeOk o userInput hasChatbotSession r
          (.msg s :: (pre' ++ [.err (.closeErr code)])) = .ok r o.sessionHistory
        unfold promptChatbotLoop
        have hc1 : ¬(containsStr s sendDataCue = true ∧
            constructClientMessage o userInput hasChatbotSession ≠ "" ∧ writeOk = false) := by
          rintro ⟨h1, h2, h3⟩
          rcases hsend h1 with h4 | h4
          · exact h2 h4
          · rw [h4] at h3; exact Bool.noConfusion h3
        rw [if_neg hc1]
        by_cases hs : containsStr s processStartsCue = true
        · rw [if_pos hs]
          exact ih hben'
        · rw [if_neg hs]
          by_cases hg : containsStr s processGeneratingCue = true
          · rw [if_pos hg]
            exact ih hben'
          · rw [if_neg hg]
            have hcomp : containsStr s processCompletedCue = false := by
              rcases hcue with h | h | h
              · exact absurd h hs
              · exact absurd h hg
              · exact h
            rw [if_neg (by rw [hcomp]; exact Bool.noConfusion)]
            exact ih hben'
  · intro parse writeOk o userInput hasChatbotSession r rest
    unfold promptChatbotLoop
    have hun : isUnexpectedCloseError (.closeErr 1001) [1001] = false := rfl
    rw [hun]
    rfl
  · intro parse writeOk o userInput hasChatbotSession r rest
    rfl

/-- C2 witness: the amended theorem applied to a concrete benign prefix and
a concrete unexpected close code. -/
theorem C2_close_handling_amended_witness :
    promptChatbotLoop (fun _ => none) true c2Client "ls" false ""
        ([.msg "\x7b\"msg\":\"process_starts\"\x7d"] ++ [.err (.closeErr 1000)]) =
      .ok "" c2Client.sessionHistory :=
  C2_close_handling_amended.1 (fun _ => none) true c2Client "ls" false
    [.msg "\x7b\"msg\":\"process_starts\"\x7d"] 1000 "" (by
      intro e he
      simp only [List.mem_singleton] at he
      subst he
      constructor
      · intro h
        exact absurd h (by decide)
      · exact Or.inl (by decide))
    (by decide)

/-! ## Session scanner / dispatcher (`monitorSession`, `scanSessions`) -/

/-- Embedding of `Muxnet.getLastNonEmptyLine`: scan the pane text line by
line, keeping the latest line whose trimmed content is non-empty (the
trimmed content is what is kept); empty when there is none. -/
def getLastNonEmptyLine (content : String) : String :=
  String.mk ((goLines content.data).foldl
    (fun lastLine l =>
      let line := ((l.dropWhile goUniSpace).reverse.dropWhile goUniSpace).reverse
      if line ≠ [] then line else lastLine) [])

/-- The system prompt prefix used by `takeOver` (identical in both
variants). -/
def systemPromptText : String :=
  "System Prompt: Provide the system commands necessary to achieve the user\x27s goal stated below. Assume the user is on linux and provide ONLY the commands.\n NO explanations.\nNo sudo\n."

/-- The full prompt `takeOver` builds: screen context (when present) is
spliced in with literal backslash-n sequences. -/
def takeOverPrompt (prompt screenContent : String) : String :=
  let fullPrompt :=
    if screenContent ≠ "" then
      "Screen Context:\\n" ++ screenContent ++ "\\n\\nUser Prompt: " ++ prompt
    else "User Prompt: " ++ prompt
  systemPromptText ++ fullPrompt ++ "\n\n\x27\x27\x27bash\n"

/-- Outcome of `os.Remove`. -/
inductive RemoveOutcome where
  | removed
  | notExist
  | otherErr

/-- Model of `os.Remove` over a file system given as the list of present
paths; `faults` lists paths whose removal fails with an error other than
absence (permissions and the like). -/
def osRemove (fs faults : List String) (path : String) : RemoveOutcome × List String :=
  if path ∈ faults then (.otherErr, fs)
  else if path ∈ fs then (.removed, fs.erase path)
  else (.notExist, fs)

/-- The three report branches of `DeleteSessionFile`: the success log, the
distinct does-not-exist log, and the distinct other-error log. -/
inductive DeleteReport where
  | deletedOk
  | reportedMissing
  | reportedError
deriving DecidableEq

/-- The path `DeleteSessionFile` builds: `fmt.Sprintf("%s/%s.soul",
o.SaveDir, sessionName)`. -/
def soulPath (o : OphanimClient) (sessionName : String) : String :=
  o.saveDir ++ "/" ++ sessionName ++ ".soul"

/-- Embedding of `OphanimClient.DeleteSessionFile`: remove
`SaveDir/<name>.soul`, reporting absence distinctly from other failures. -/
def deleteSessionFile (o : OphanimClient) (sessionName : String) (fs faults : List String) :
    DeleteReport × List String :=
  match osRemove fs faults (soulPath o sessionName) with
  | (.removed, fs2) => (.deletedOk, fs2)
  | (.notExist, fs2) => (.reportedMissing, fs2)
  | (.otherErr, fs2) => (.reportedError, fs2)

/-- Observable side effects of one `monitorSession` call: a backend
dispatch (with the full prompt, the RAG flag and the save-file argument),
a file removal attempt, or keystrokes sent to the pane. -/
inductive TraceEvent where
  | dispatched (fullPrompt : String) (useRAG : Bool) (saveFile : String)
  | removeAttempt (path : String) (report : DeleteReport)
  | sentKeys (text : String)
deriving DecidableEq

/-- The fields of the websocket-variant `Muxnet` that `monitorSession`
reads: the watcher's own session name and its `OphanimClient`. -/
structure MuxnetCfg where
  sessionName : String
  ophanim : OphanimClient

/-- The per-session environment of one `monitorSession` call: the captured
pane text (`none` models a capture error), the `time.Now()` value, and the
dispatch outcome (only `main.go`'s exec-based dispatch can fail without
terminating the process). -/
structure MonitorEnv where
  captureResult : Option String
  now : Int
  dispatchOk : Bool
  dispatchResponse : String

/-- Result of the websocket variant's `monitorSession`. -/
structure MonitorWsOut where
  pp : PP
  watched : List String
  fs : List String
  statusEntry : Option String
  trace : List TraceEvent

/-- Embedding of the websocket variant's `Muxnet.monitorSession` as a state
transition. The `!` branch calls `m.ophanim.DeleteSessionFile(m.sessionName)`
— the watcher's own configured session name, not the observed session.
Dispatch failures in this variant terminate the process inside
`PromptChatbot` (`log.Fatal`), so the transition below describes the runs
that return. -/
def monitorSessionWs (m : MuxnetCfg) (pp : PP) (watched fs faults : List String)
    (sessionName : String) (env : MonitorEnv) : MonitorWsOut :=
  let watched2 := if watched.contains sessionName then watched else sessionName :: watched
  match env.captureResult with
  | none => ⟨pp, watched2, fs, none, []⟩
  | some content =>
    let lastLine := getLastNonEmptyLine content
    if lastLine = "" then ⟨pp, watched2, fs, none, []⟩
    else
      match findDirective lastLine with
      | none => ⟨pp, watched2, fs, none, []⟩
      | some (glyph, prompt) =>
        if glyph = '!' then
          ⟨pp, watched2, (deleteSessionFile m.ophanim m.sessionName fs faults).2,
            some "Session file deleted",
            [.removeAttempt (soulPath m.ophanim m.sessionName)
              (deleteSessionFile m.ophanim m.sessionName fs faults).1]⟩
        else if canExecutePrompt pp sessionName prompt env.now then
          let useRAG := glyph == '@'
          let useScreenContent := glyph == '%'
          let screenContent :=
            if useScreenContent then getFilteredScreenContent content else ""
          ⟨recordExecution pp sessionName prompt env.now, watched2, fs, some prompt,
            [.dispatched (takeOverPrompt prompt screenContent) useRAG "",
              .sentKeys "\x03", .sentKeys (filterCommandResponse env.dispatchResponse)]⟩
        else ⟨pp, watched2, fs, some ("[Skipped] " ++ prompt), []⟩

/-- Result of `main.go`'s `monitorSession`. -/
structure MonitorMainOut where
  pp : PP
  fs : List String
  statusEntry : Option String
  trace : List TraceEvent

/-- Embedding of `main.go`'s `Muxnet.monitorSession` together with its
`takeOver`: the backend is an external command whose success is
`env.dispatchOk`; on failure `takeOver` logs, writes the error text to the
pane and returns normally — and `monitorSession` records the execution
time unconditionally after `takeOver` returns. The `!` branch removes the
observed session's `muxnet_<session>.soul` under `$HOME/.config/ophanim`. -/
def monitorSessionMainGo (muxSessionName home : String) (pp : PP) (fs faults : List String)
    (sessionName : String) (env : MonitorEnv) : MonitorMainOut :=
  match env.captureResult with
  | none => ⟨pp, fs, none, []⟩
  | some content =>
    let lastLine := getLastNonEmptyLine content
    if lastLine = "" then ⟨pp, fs, none, []⟩
    else
      match findDirective lastLine with
      | none => ⟨pp, fs, none, []⟩
      | some (glyph, prompt) =>
        if glyph = '!' then
          let filePath := home ++ "/.config/ophanim/muxnet_" ++ sessionName ++ ".soul"
          match osRemove fs faults filePath with
          | (.removed, fs2) => ⟨pp, fs2, some "Session file deleted",
              [.removeAttempt filePath .deletedOk,
                .sentKeys ("Session file " ++ filePath ++ " deleted successfully.")]⟩
          | (.notExist, fs2) => ⟨pp, fs2, some "Session file deleted",
              [.removeAttempt filePath .reportedMissing,
                .sentKeys ("Session file " ++ filePath ++ " does not exist.")]⟩
          | (.otherErr, fs2) => ⟨pp, fs2, some "Session file deleted",
              [.removeAttempt filePath .reportedError,
                .sentKeys "Error deleting session file."]⟩
        else if canExecutePrompt pp sessionName prompt env.now then
          let useRAG := glyph == '@'
          let useScreenContent := glyph == '%'
          let screenContent :=
            if useScreenContent then getFilteredScreenContent content else ""
          let fullPrompt := takeOverPrompt prompt screenContent
          let trace :=
            if env.dispatchOk then
              [TraceEvent.dispatched fullPrompt useRAG ("muxnet_" ++ muxSessionName),
                .sentKeys "\x03", .sentKeys (filterCommandResponse env.dispatchResponse)]
            else
              [TraceEvent.dispatched fullPrompt useRAG ("muxnet_" ++ muxSessionName),
                .sentKeys "Error executing Ophanim command."]
          ⟨recordExecution pp sessionName prompt env.now, fs, some prompt, trace⟩
        else ⟨pp, fs, some ("[Skipped] " ++ prompt), []⟩

/-- The watcher state threaded across poll ticks. -/
structure MuxState where
  pp : PP
  watched : List String
  sessionStatus : List (String × String)
  fs : List String

/-- The environment of one poll tick: the session listing (`none` models a
listing error) and each session's capture/dispatch environment. -/
structure TickEnv where
  sessions : Option (List String)
  perSession : String → MonitorEnv

/-- The accumulator of the per-tick loop over sessions. -/
structure TickAcc where
  pp : PP
  watched : List String
  fs : List String
  newStatus : List (String × String)

/-- Writing `newStatus[sessionName] = entry` when `monitorSession` set one. -/
def statusInsert (sessionName : String) (entry : Option String)
    (newStatus : List (String × String)) : List (String × String) :=
  match entry with
  | some txt => upsert sessionName txt newStatus
  | none => newStatus

/-- One step of the per-tick loop: run `monitorSession` for one session,
threading the watcher state and collecting its status entry. -/
def monitorFold (m : MuxnetCfg) (faults : List String) (env : TickEnv)
    (acc : TickAcc) (sessionName : String) : TickAcc :=
  let out := monitorSessionWs m acc.pp acc.watched acc.fs faults sessionName
    (env.perSession sessionName)
  ⟨out.pp, out.watched, out.fs, statusInsert sessionName out.statusEntry acc.newStatus⟩

/-- Embedding of one iteration of `scanSessions`: on a listing error or an
empty listing the status map becomes a fresh empty map; otherwise a fresh
map is built by running `monitorSession` on each listed session, and the
previous tick's map is discarded in either case. -/
def scanOnce (m : MuxnetCfg) (faults : List String) (st : MuxState) (env : TickEnv) :
    MuxState :=
  match env.sessions with
  | none => ⟨st.pp, st.watched, [], st.fs⟩
  | some [] => ⟨st.pp, st.watched, [], st.fs⟩
  | some sessions =>
    let acc := sessions.foldl (monitorFold m faults env) ⟨st.pp, st.watched, st.fs, []⟩
    ⟨acc.pp, acc.watched, acc.newStatus, acc.fs⟩

theorem statusInsert_lookup_ne (sessionName : String) (entry : Option String)
    (newStatus : List (String × String)) (s : String) (h : s ≠ sessionName) :
    assocLookup (statusInsert sessionName entry newStatus) s = assocLookup newStatus s := by
  cases entry with
  | none => rfl
  | some txt => exact assocLookup_upsert_ne sessionName s txt newStatus h

theorem monitorFold_lookup_none (m : MuxnetCfg) (faults : List String) (env : TickEnv) :
    ∀ (sessions : List String) (acc : TickAcc) (s : String), s ∉ sessions →
      assocLookup acc.newStatus s = none →
      assocLookup ((sessions.foldl (monitorFold m faults env) acc)).newStatus s = none
  | [], _, _, _, hacc => hacc
  | sess :: rest, acc, s, hs, hacc => by
    have hne : s ≠ sess := fun h => hs (h ▸ List.mem_cons_self sess rest)
    have hrest : s ∉ rest := fun h => hs (List.mem_cons.mpr (Or.inr h))
    show assocLookup
      ((rest.foldl (monitorFold m faults env) (monitorFold m faults env acc sess))).newStatus
        s = none
    apply monitorFold_lookup_none m faults env rest _ s hrest
    show assocLookup (statusInsert sess
      (monitorSessionWs m acc.pp acc.watched acc.fs faults sess
        (env.perSession sess)).statusEntry acc.newStatus) s = none
    rw [statusInsert_lookup_ne _ _ _ _ hne]
    exact hacc

/-- C6: after every poll tick the session status map has been rebuilt from
scratch, not merged: whatever the previous tick's map held, a session that
is not in the current tick's listing — in particular one that disappeared
between ticks — is absent from the new status map. -/
theorem C6_status_rebuilt_each_tick (m : MuxnetCfg) (faults : List String)
    (st : MuxState) (env : TickEnv) (s : String)
    (h : s ∉ env.sessions.getD []) :
    assocLookup (scanOnce m faults st env).sessionStatus s = none := by
  unfold scanOnce
  cases henv : env.sessions with
  | none => exact assocLookup_nil s
  | some sessions =>
    cases hss : sessions with
    | nil => exact assocLookup_nil s
    | cons x xs =>
      show assocLookup
        (((x :: xs).foldl (monitorFold m faults env) ⟨st.pp, st.watched, st.fs, []⟩)).newStatus
          s = none
      apply monitorFold_lookup_none m faults env (x :: xs) _ s
      · rw [henv, hss] at h
        exact h
      · exact assocLookup_nil s

/-- C6 witness: a session present in the previous status map but absent
from the current listing is absent from the rebuilt map. -/
theorem C6_status_rebuilt_each_tick_witness :
    assocLookup (scanOnce ⟨"mux", c2Client⟩ []
        ⟨[], [], [("old", "stale entry")], []⟩
        ⟨some ["a"], fun _ => ⟨none, 0, true, ""⟩⟩).sessionStatus "old" = none :=
  C6_status_rebuilt_each_tick ⟨"mux", c2Client⟩ [] ⟨[], [], [("old", "stale entry")], []⟩
    ⟨some ["a"], fun _ => ⟨none, 0, true, ""⟩⟩ "old" (by decide)

theorem findDirective_empty_ne {glyph : Char} {prompt : String}
    (hd : findDirective "" = some (glyph, prompt)) : False := by
  have h : (none : Option (Char × String)) = some (glyph, prompt) := hd
  exact Option.noConfusion h

/-- C4 (amended): in `main.go`'s `monitorSession` the execution timestamp
is recorded immediately after `takeOver` returns, unconditionally — for a
failed dispatch exactly as for a successful one — so a failed payload IS
blocked by the deduplication window on subsequent ticks. -/
theorem C4_record_unconditional_amended (muxSessionName home : String) (pp : PP)
    (fs faults : List String) (sessionName : String) (env : MonitorEnv)
    (content : String) (glyph : Char) (prompt : String)
    (hc : env.captureResult = some content)
    (hd : findDirective (getLastNonEmptyLine content) = some (glyph, prompt))
    (hg : ¬(glyph = '!'))
    (hcan : canExecutePrompt pp sessionName prompt env.now = true) :
    (monitorSessionMainGo muxSessionName home pp fs faults sessionName env).pp =
      recordExecution pp sessionName prompt env.now := by
  have hne : ¬(getLastNonEmptyLine content = "") := by
    intro he
    rw [he] at hd
    exact findDirective_empty_ne hd
  simp only [monitorSessionMainGo, hc, hd, if_neg hne, if_neg hg, if_pos hcan]

/-- C4 counterexample: a failed dispatch (the Ophanim command errors, and
the error text is written to the pane) still records the execution
timestamp, so the failed payload is blocked for the next 60 seconds —
contrary to the claim that no timestamp is recorded for a failed dispatch. -/
theorem C4_record_after_failed_dispatch_counterexample :
    lastExecution (monitorSessionMainGo "mux" "/h" [] [] [] "sess"
        ⟨some "#$ do thing .", 0, false, ""⟩).pp "sess" "do thing" = some 0 ∧
    (monitorSessionMainGo "mux" "/h" [] [] [] "sess"
        ⟨some "#$ do thing .", 0, false, ""⟩).trace =
      [.dispatched (takeOverPrompt "do thing" "") false "muxnet_mux",
        .sentKeys "Error executing Ophanim command."] := by
  constructor
  · rfl
  · rfl

/-- C4 witness: the amended theorem applied at a concrete failed dispatch. -/
theorem C4_record_unconditional_amended_witness :
    (monitorSessionMainGo "mux" "/h" [] [] [] "sess"
        ⟨some "#$ do thing .", 0, false, ""⟩).pp = recordExecution [] "sess" "do thing" 0 :=
  C4_record_unconditional_amended "mux" "/h" [] [] [] "sess"
    ⟨some "#$ do thing .", 0, false, ""⟩ "#$ do thing ." '$' "do thing"
    rfl (by decide) (by decide) (by decide)

/-- C9 (amended): a `!` directive observed on any session triggers —
without any backend round-trip and without consulting the dedup state —
exactly one unconditional removal attempt, but of the WATCHER's configured
session history file `SaveDir/<m.sessionName>.soul`, not the observed
session's; the observed session's status is marked "Session file deleted";
when the file is absent the attempt is an idempotent no-op reported as
missing, and absence is reported distinctly from other I/O failures. -/
theorem C9_delete_directive_amended (m : MuxnetCfg) (pp : PP)
    (watched fs faults : List String) (sessionName : String) (env : MonitorEnv)
    (content prompt : String)
    (hc : env.captureResult = some content)
    (hd : findDirective (getLastNonEmptyLine content) = some ('!', prompt)) :
    (monitorSessionWs m pp watched fs faults sessionName env).trace =
      [.removeAttempt (soulPath m.ophanim m.sessionName)
        (deleteSessionFile m.ophanim m.sessionName fs faults).1] ∧
    (∀ e ∈ (monitorSessionWs m pp watched fs faults sessionName env).trace,
      ∀ fp r sf, e ≠ TraceEvent.dispatched fp r sf) ∧
    (monitorSessionWs m pp watched fs faults sessionName env).statusEntry =
      some "Session file deleted" ∧
    (monitorSessionWs m pp watched fs faults sessionName env).pp = pp ∧
    (soulPath m.ophanim m.sessionName ∉ fs → soulPath m.ophanim m.sessionName ∉ faults →
      (monitorSessionWs m pp watched fs faults sessionName env).fs = fs ∧
      (deleteSessionFile m.ophanim m.sessionName fs faults).1 = .reportedMissing) ∧
    (soulPath m.ophanim m.sessionName ∈ faults →
      (deleteSessionFile m.ophanim m.sessionName fs faults).1 = .reportedError) ∧
    DeleteReport.reportedMissing ≠ DeleteReport.reportedError := by
  have hne : ¬(getLastNonEmptyLine content = "") := by
    intro he
    rw [he] at hd
    exact findDirective_empty_ne hd
  have hout : monitorSessionWs m pp watched fs faults sessionName env =
      ⟨pp, (if watched.contains sessionName then watched else sessionName :: watched),
        (deleteSessionFile m.ophanim m.sessionName fs faults).2,
        some "Session file deleted",
        [.removeAttempt (soulPath m.ophanim m.sessionName)
          (deleteSessionFile m.ophanim m.sessionName fs faults).1]⟩ := by
    simp only [monitorSessionWs, hc, hd, if_neg hne, if_pos rfl, if_true]
  refine ⟨by rw [hout], ?_, by rw [hout], by rw [hout], ?_, ?_, by decide⟩
  · rw [hout]
    intro e he fp r sf
    simp only [List.mem_singleton] at he
    subst he
    intro hcontra
    exact TraceEvent.noConfusion hcontra
  · intro h1 h2
    have hos : osRemove fs faults (soulPath m.ophanim m.sessionName) =
        (RemoveOutcome.notExist, fs) := by
      unfold osRemove
      rw [if_neg h2, if_neg h1]
    have hdel : deleteSessionFile m.ophanim m.sessionName fs faults =
        (DeleteReport.reportedMissing, fs) := by
      unfold deleteSessionFile
      rw [hos]
    constructor
    · rw [hout]
      show (deleteSessionFile m.ophanim m.sessionName fs faults).2 = fs
      rw [hdel]
    · rw [hdel]
  · intro h
    have hos : osRemove fs faults (soulPath m.ophanim m.sessionName) =
        (RemoveOutcome.otherErr, fs) := by
      unfold osRemove
      rw [if_pos h]
    have hdel : deleteSessionFile m.ophanim m.sessionName fs faults =
        (DeleteReport.reportedError, fs) := by
      unfold deleteSessionFile
      rw [hos]
    rw [hdel]

/-- The watcher configuration for the C9 counterexample: its own session
name is "beta". -/
def c9Cfg : MuxnetCfg :=
  ⟨"beta", ⟨"abcdef01234", gabsNew, false, "Current Events", "Google", "/save"⟩⟩

/-- C9 counterexample: a `!` directive observed on tmux session "alpha"
removes the watcher's own file `/save/beta.soul` (reported missing here),
while alpha's persisted history file `/save/alpha.soul` survives — the
dispatcher does not remove the observed session's file. -/
theorem C9_delete_directive_counterexample :
    (monitorSessionWs c9Cfg [] [] ["/save/alpha.soul"] [] "alpha"
        ⟨some "#! wipe .", 0, true, ""⟩).fs = ["/save/alpha.soul"] ∧
    (monitorSessionWs c9Cfg [] [] ["/save/alpha.soul"] [] "alpha"
        ⟨some "#! wipe .", 0, true, ""⟩).trace =
      [.removeAttempt "/save/beta.soul" .reportedMissing] := by
  constructor
  · rfl
  · rfl

/-- C9 witness: the amended theorem applied to a concrete observed session
and an absent watcher history file. -/
theorem C9_delete_directive_amended_witness :
    (monitorSessionWs c9Cfg [] [] [] [] "alpha"
        ⟨some "#! wipe .", 0, true, ""⟩).statusEntry = some "Session file deleted" :=
  (C9_delete_directive_amended c9Cfg [] [] [] [] "alpha"
    ⟨some "#! wipe .", 0, true, ""⟩ "#! wipe ." "wipe" rfl (by decide)).2.2.1
